import Mathlib

/-!
Verification development for the `kaka` URL-deduplication core.

The Rust sources modelled here are:
* `src/bloom.rs`      — Bloom filter (`BloomFilter`)
* `src/normalizer.rs` — URL normalizer (`UrlNormalizer`)
* `src/simhash.rs`    — SimHash engine (`SimHashEngine`)
* `src/lib.rs`        — deduplication facade (`DeduplicationEngine`)

Machine integers are modelled as `Nat` with explicit `% 2^64` where the Rust
code performs wrapping `u64` arithmetic.  The process-randomized `ahash`
hasher is modelled by quantifying over an arbitrary hash function
`String → Nat × Nat` (the pair `(h1, h2)` produced by
`BloomFilter::base_hashes`); theorems hold for every such function, hence for
the actual seeded hasher.  Fallible operations return `Option` (`none`
standing for Rust's `Err(ParseError)`).
-/

namespace Kaka

/-- `2^64`, the modulus of Rust `u64` wrapping arithmetic. -/
def U64 : Nat := 2 ^ 64

/-- The state of `BloomFilter` (bloom.rs): a bit vector, the number `k` of
hash positions per element, and the count of insert calls.  The seeded
`RandomState` hasher is not part of the state here; it is passed to each
operation as the function argument `hash`, fixed across the calls of one
scenario exactly as the per-filter hasher is fixed in Rust. -/
structure BloomFilter where
  bits : List Bool
  num_hashes : Nat
  items_inserted : Nat
deriving DecidableEq

/-- The bit position probed in round `i` of `BloomFilter::insert/contains`:
`(h1.wrapping_add((i as u64).wrapping_mul(h2)) % m)`.  For `u64` inputs the
wrapping add/mul compose to `(h1 + i·h2) mod 2^64`. -/
def bloomIndex (h1 h2 i m : Nat) : Nat :=
  ((h1 + i * h2) % U64) % m

/-- `BloomFilter::insert` (bloom.rs:64-74): set the `k` double-hashed bit
positions and increment `items_inserted`. -/
def BloomFilter.insert (hash : String → Nat × Nat) (s : BloomFilter)
    (value : String) : BloomFilter :=
  let h := hash value
  let m := s.bits.length
  { s with
    bits := (List.range s.num_hashes).foldl
      (fun bs i => bs.set (bloomIndex h.1 h.2 i m) true) s.bits
    items_inserted := s.items_inserted + 1 }

/-- `BloomFilter::contains` (bloom.rs:81-93): true iff all `k` double-hashed
bit positions are set. -/
def BloomFilter.contains (hash : String → Nat × Nat) (s : BloomFilter)
    (value : String) : Bool :=
  let h := hash value
  let m := s.bits.length
  (List.range s.num_hashes).all
    (fun i => s.bits.getD (bloomIndex h.1 h.2 i m) false)

/-- A sequence of `insert` calls, left to right. -/
def BloomFilter.insertSeq (hash : String → Nat × Nat) (s : BloomFilter)
    (values : List String) : BloomFilter :=
  values.foldl (fun b v => b.insert hash v) s

/-! ### URL parser (consumed external component)

`normalizer.rs` and `lib.rs` call the external `url` crate.  Modelled from
the spec: spec §6 "URL parser interface (consumed)" — from a raw URL the
parser yields `scheme` (ASCII, lowercased), `host` (string or none), `port`
(optional integer), `path`, decoded `query_pairs`, plus a parse-error
signal.  The model below implements that interface for a conservative
fragment of URL syntax (ASCII hosts, simple path/query character sets, no
userinfo, no dot segments,
non-special schemes for host-less URLs); inputs outside the fragment are
rejected (`none`), never mis-parsed.  On every string appearing in a theorem
below, the model's behavior coincides with the `url` crate's. -/

/-- The parsed-URL record delivered by the external parser (spec §6). -/
structure ParsedUrl where
  scheme : String
  host : Option String
  port : Option Nat
  path : String
  query : Option String
  fragment : Option String
deriving DecidableEq

/-- Split a character list at the first occurrence of `c` (exclusive);
`none` if `c` does not occur. -/
def splitAtFirst (c : Char) : List Char → Option (List Char × List Char)
  | [] => none
  | a :: t =>
      if a == c then some ([], t)
      else match splitAtFirst c t with
        | none => none
        | some (l, r) => some (a :: l, r)

def isSchemeChar (c : Char) : Bool :=
  c.isAlpha || c.isDigit || c == '+' || c == '-' || c == '.'

def isHostChar (c : Char) : Bool :=
  c.isAlpha || c.isDigit || c == '-' || c == '.' || c == '_'

def isPathChar (c : Char) : Bool :=
  c.isAlpha || c.isDigit || c == '/' || c == '-' || c == '.' || c == '_' ||
  c == '~' || c == '%' || c == '+'

def isQueryChar (c : Char) : Bool :=
  c.isAlpha || c.isDigit || c == '&' || c == '=' || c == '%' || c == '+' ||
  c == '-' || c == '.' || c == '_' || c == '~' || c == '/'

/-- ASCII lowercasing of one character. -/
def asciiLower (c : Char) : Char :=
  if 'A' ≤ c ∧ c ≤ 'Z' then Char.ofNat (c.toNat + 32) else c

def digitsToNat (l : List Char) : Nat :=
  l.foldl (fun n c => 10 * n + (c.toNat - '0'.toNat)) 0

/-- The WHATWG special schemes (as known to the `url` crate). -/
def specialSchemes : List String := ["http", "https", "ws", "wss", "ftp", "file"]

/-- No path segment is `.` or `..` (dot segments are resolved by the parser;
inputs containing them are outside the modelled fragment). -/
def noDotSegments (l : List Char) : Bool :=
  (l.splitOn '/').all fun seg => !(seg == ['.']) && !(seg == ['.', '.'])

/-- Serialized path of a parsed URL with an authority: empty input
serializes as "/" for special schemes and as "" otherwise (exactly the
`url` crate's `Url::path`). -/
def validatePath (scheme : String) (pathCs : List Char) : Option String :=
  if pathCs = [] then
    some (if specialSchemes.contains scheme then "/" else "")
  else if pathCs.all isPathChar && noDotSegments pathCs then
    some (String.mk pathCs)
  else none

/-- Modelled from the spec: `Url::parse` of the consumed `url` crate
(spec §6), on the conservative fragment described above. -/
def parseUrl (input : String) : Option ParsedUrl := do
  let cs := input.toList
  let (beforeFrag, fragment) :=
    match splitAtFirst '#' cs with
    | none => (cs, none)
    | some (l, r) => (l, some (String.mk r))
  let (beforeQuery, rawQuery) :=
    match splitAtFirst '?' beforeFrag with
    | none => (beforeFrag, none)
    | some (l, r) => (l, some r)
  let query ← match rawQuery with
    | none => pure none
    | some r => if r.all isQueryChar then pure (some (String.mk r)) else none
  let (schemeCs, rest) ← splitAtFirst ':' beforeQuery
  if schemeCs ≠ [] ∧ (schemeCs.headD 'a').isAlpha ∧ schemeCs.all isSchemeChar then
    let scheme := String.mk (schemeCs.map asciiLower)
    if rest.take 2 = ['/', '/'] then
      let rest2 := rest.drop 2
      let auth := rest2.takeWhile (fun c => c != '/')
      let pathCs := rest2.dropWhile (fun c => c != '/')
      if auth.contains '@' then none else do
      let (hostCs, port) ← match splitAtFirst ':' auth with
        | none => some (auth, none)
        | some (h, pd) =>
            if pd ≠ [] ∧ pd.all Char.isDigit ∧ digitsToNat pd ≤ 65535 then
              some (h, some (digitsToNat pd))
            else none
      if hostCs ≠ [] ∧ hostCs.all isHostChar then
        let host := String.mk (hostCs.map asciiLower)
        let path ← validatePath scheme pathCs
        pure { scheme, host := some host, port, path, query, fragment }
      else none
    else
      -- cannot-be-a-base URL (no authority).  The crate treats special
      -- schemes without "//" differently (it still extracts a host), so
      -- those stay outside the model.
      if specialSchemes.contains scheme then none
      else if rest.all isPathChar && !rest.contains '/' then
        pure { scheme, host := none, port := none, path := String.mk rest,
               query, fragment }
      else none
  else none

def isHexDigit (c : Char) : Bool :=
  c.isDigit || ('a' ≤ c && c ≤ 'f') || ('A' ≤ c && c ≤ 'F')

def hexVal (c : Char) : Nat :=
  if c.isDigit then c.toNat - '0'.toNat
  else if 'a' ≤ c ∧ c ≤ 'f' then c.toNat - 'a'.toNat + 10
  else c.toNat - 'A'.toNat + 10

/-- `application/x-www-form-urlencoded` decoding of one key or value, as the
`url` crate's `query_pairs` does it: '+' becomes a space and a valid `%XX`
escape becomes the escaped byte ('+' inside an escape is not re-decoded).
Escapes of bytes ≥ 0x80 (multi-byte UTF-8) are outside the modelled
fragment and left literal. -/
def formDecode : List Char → List Char
  | [] => []
  | '%' :: a :: b :: rest =>
      if isHexDigit a && isHexDigit b && decide (16 * hexVal a + hexVal b < 128) then
        Char.ofNat (16 * hexVal a + hexVal b) :: formDecode rest
      else '%' :: formDecode (a :: b :: rest)
  | c :: rest => (if c == '+' then ' ' else c) :: formDecode rest

/-- `url.query_pairs()` (= `form_urlencoded::parse` over the raw query):
split on '&', skip empty pieces, split each piece at its first '=' (a piece
with no '=' yields an empty value), form-decode key and value. -/
def queryPairs (q : String) : List (String × String) :=
  ((q.toList.splitOn '&').filter (fun piece => piece ≠ [])).map fun piece =>
    match splitAtFirst '=' piece with
    | none => (String.mk (formDecode piece), "")
    | some (k, v) => (String.mk (formDecode k), String.mk (formDecode v))

/-! ### URL normalizer (src/normalizer.rs) -/

/-- `NormalizerConfig` (normalizer.rs). -/
structure NormalizerConfig where
  lowercase_scheme : Bool
  remove_www : Bool
  remove_default_port : Bool
  sort_query_params : Bool
  remove_fragment : Bool
  lowercase_hostname : Bool
deriving DecidableEq

/-- The configuration installed by `UrlNormalizer::new()`: every flag on. -/
def NormalizerConfig.default : NormalizerConfig :=
  { lowercase_scheme := true, remove_www := true, remove_default_port := true,
    sort_query_params := true, remove_fragment := true,
    lowercase_hostname := true }

/-- `DEFAULT_TRACKING_PARAMS` (normalizer.rs:164-180). -/
def DEFAULT_TRACKING_PARAMS : List String :=
  ["utm_source", "utm_medium", "utm_campaign", "utm_content", "utm_term",
   "fbclid", "gclid", "msclkid", "_ga", "_gl", "mc_cid", "mc_eid",
   "ref", "referrer"]

/-- Strict lexicographic order on character lists by code point; on the
ASCII strings of the modelled fragment this coincides with Rust's
byte-lexicographic `str::cmp` (UTF-8 byte order equals code-point order). -/
def charListLt : List Char → List Char → Bool
  | [], [] => false
  | [], _ :: _ => true
  | _ :: _, [] => false
  | a :: as, b :: bs =>
      if a.toNat < b.toNat then true
      else if b.toNat < a.toNat then false
      else charListLt as bs

/-- `a.0.cmp(&b.0) == Less`: the key order used by the query sort. -/
def keyLt (a b : String) : Bool := charListLt a.toList b.toList

/-- `keyLt`'s reflexive closure: `a.0.cmp(&b.0) != Greater`. -/
def keyLe (a b : String) : Bool := !keyLt b a

/-- Insert a pair into a key-sorted list, before the first position where it
is not strictly greater than the resident key (so after equal keys already
present: stable insertion). -/
def insertPairSorted (p : String × String) :
    List (String × String) → List (String × String)
  | [] => [p]
  | q :: t => if keyLt q.1 p.1 then q :: insertPairSorted p t else p :: q :: t

/-- A deterministic model of `params.sort_unstable_by(|a, b| a.0.cmp(&b.0))`:
a stable insertion sort on keys.  Rust's `sort_unstable_by` guarantees a
key-sorted permutation of the input but promises nothing about the order
of pairs with equal keys; on small slices (below the insertion-sort
threshold) the standard library is in fact order-preserving, which this
model matches.  Order properties of the emitted query are additionally
stated against the bare contract via `SortSpec` below, without assuming
stability. -/
def sortPairsByKey : List (String × String) → List (String × String)
  | [] => []
  | p :: t => insertPairSorted p (sortPairsByKey t)

/-- The query step of `UrlNormalizer::normalize` (normalizer.rs:119-146),
parameterized by the sort routine used for `sort_unstable_by`. -/
def queryComponent
    (sortImpl : List (String × String) → List (String × String))
    (cfg : NormalizerConfig) (tracking : List String) (q : String) : String :=
  let params := (queryPairs q).filter fun kv => !(tracking.contains kv.1)
  if params.isEmpty then ""
  else
    let params :=
      if cfg.sort_query_params && params.length > 1 then sortImpl params
      else params
    "?" ++ String.intercalate "&" (params.map fun kv => kv.1 ++ "=" ++ kv.2)

/-- `trim_end_matches('/')`: drop every trailing '/'. -/
def trimTrailingSlashes (s : String) : String :=
  String.mk ((s.toList.reverse.dropWhile (fun c => c == '/')).reverse)

/-- The host step of `UrlNormalizer::normalize` (normalizer.rs:85-97):
lowercase when configured, and when `remove_www` is set and the host starts
with "www.", drop that prefix (`host.starts_with("www.")` then `&host[4..]`,
rendered here on the character list). -/
def hostComponent (cfg : NormalizerConfig) : Option String → String
  | none => ""
  | some host =>
      let hl := if cfg.lowercase_hostname then host.toList.map asciiLower
        else host.toList
      if cfg.remove_www && hl.take 4 == ['w', 'w', 'w', '.'] then
        String.mk (hl.drop 4)
      else String.mk hl

/-- The port step of `UrlNormalizer::normalize` (normalizer.rs:99-111). -/
def portComponent (cfg : NormalizerConfig) (scheme : String) :
    Option Nat → String
  | none => ""
  | some port =>
      let is_default := (scheme == "http" && port == 80) ||
        (scheme == "https" && port == 443)
      if cfg.remove_default_port && is_default then ""
      else ":" ++ toString port

/-- The path step of `UrlNormalizer::normalize` (normalizer.rs:113-119). -/
def pathComponent (path : String) : String :=
  if path ≠ "/" then trimTrailingSlashes path else "/"

/-- The body of `UrlNormalizer::normalize` (normalizer.rs:63-152) after a
successful parse, for a normalizer with no domain rules (the default
`UrlNormalizer::new()` leaves `domain_rules` empty, so the override branch
never fires).  Under `lowercase_scheme` both branches push `url.scheme()`
verbatim, as in the source.  The fragment is never emitted. -/
def normalizeParsed
    (sortImpl : List (String × String) → List (String × String))
    (cfg : NormalizerConfig) (tracking : List String) (url : ParsedUrl) :
    String :=
  url.scheme ++ "://" ++ hostComponent cfg url.host ++
    portComponent cfg url.scheme url.port ++
    pathComponent url.path ++
    (match url.query with
     | none => ""
     | some q => queryComponent sortImpl cfg tracking q)

/-- `UrlNormalizer::normalize` with an explicit sort model. -/
def normalizeWith
    (sortImpl : List (String × String) → List (String × String))
    (cfg : NormalizerConfig) (tracking : List String) (input : String) :
    Option String :=
  (parseUrl input).map (normalizeParsed sortImpl cfg tracking)

/-- `UrlNormalizer::new().normalize(input)` (normalizer.rs): parse, then
canonicalize under the default configuration and tracking set.  `none`
models `Err(ParseError)`. -/
def UrlNormalizer.normalize (input : String) : Option String :=
  normalizeWith sortPairsByKey NormalizerConfig.default
    DEFAULT_TRACKING_PARAMS input

/-! ### SimHash engine (src/simhash.rs) -/

/-- Number of set bits among the 64 low bits: `u64::count_ones` for values
below `2^64`. -/
def popCount64 (x : Nat) : Nat :=
  (List.range 64).countP fun i => x.testBit i

/-- `SimHashEngine::hamming_distance` (simhash.rs:107-113):
`(h1.0 ^ h2.0).count_ones()`. -/
def hammingDistance (a b : Nat) : Nat := popCount64 (a ^^^ b)

/-- `SimHashEngine::similarity` (simhash.rs:94-105):
`1.0 - (dist as f64) / 64.0`.  With `dist ≤ 64` every intermediate `f64`
value is an exactly representable dyadic rational and every operation is
exact, so the rational model is bit-faithful to the floating-point code. -/
def similarity (a b : Nat) : ℚ :=
  1 - (hammingDistance a b : ℚ) / 64

/-- `SimHashEngine` state: only the fixed `ngram_size` (the seeded hasher is
abstracted as elsewhere). -/
structure SimHashEngine where
  ngram_size : Nat
deriving DecidableEq

/-- `SimHashEngine::new` (simhash.rs:41-48):
`assert!(bit_width == 64, ...)` then a record with `ngram_size: 3`.  The
assertion failure (panic) is modelled as `none`: the caller obtains no
engine. -/
def SimHashEngine.new (bit_width : Nat) : Option SimHashEngine :=
  if bit_width = 64 then some { ngram_size := 3 } else none

/-! ### Bloom filter construction and estimate (src/bloom.rs) -/

/-- `usize::MAX` on the 64-bit target. -/
def USIZE_MAX : Nat := 2 ^ 64 - 1

/-- The maximum length of a `bitvec` bit-vector: bit-precision addressing
steals three bits of the length word, so `BitSlice::MAX_BITS` is
`usize::MAX >> 3`; `BitVec::repeat(false, m)` panics for `m` beyond it. -/
def BITVEC_MAX_BITS : Nat := USIZE_MAX >>> 3

/-- `BloomFilter::new` (bloom.rs:45-57).  The body computes
`m = ⌈-n·ln p/(ln 2)²⌉` and `k = ⌈(m/n)·ln 2⌉` in `f64` (the `as usize` /
`as u32` casts saturate, with NaN casting to 0), then builds the record
around `BitVec::repeat(false, m)`.  It performs no validation of `capacity`
or `fp_rate`; the only failure path is the `bitvec` length assertion, which
panics when `m` exceeds `BITVEC_MAX_BITS` — that panic is modelled as
`none` (the caller obtains no filter).  The `f64` sizing itself is
abstracted as the argument `sizing`; its IEEE evaluations in the regimes
the claims touch are recorded by `sizingAtCapacityZero`,
`sizingSaturatedFpZero` and `sizingOutOfRangeFp` below. -/
def BloomFilter.new (sizing : Nat → ℚ → Nat × Nat) (capacity : Nat)
    (fp_rate : ℚ) : Option BloomFilter :=
  let mk := sizing capacity fp_rate
  if mk.1 ≤ BITVEC_MAX_BITS then
    some { bits := List.replicate mk.1 false
           num_hashes := mk.2
           items_inserted := 0 }
  else none

/-- The IEEE evaluation of the sizing formulae at `capacity = 0` with
`0 < fp_rate < 1`: `m = ⌈-0.0 · ln p / (ln 2)²⌉ = 0` (and `0` as well via
the NaN cast when `ln p` is `-∞` or NaN), and `k = ⌈(0.0/0.0)·ln 2⌉ =
⌈NaN⌉`, with `NaN as u32 == 0`.  (Used as the `sizing` argument where a
claim speaks about `capacity = 0`.) -/
def sizingAtCapacityZero : Nat → ℚ → Nat × Nat := fun _ _ => (0, 0)

/-- The IEEE evaluation of the sizing formulae at `capacity = 1` with
`fp_rate = ±0.0`: `ln p = -∞`, so `m = ⌈+∞⌉` saturates to `usize::MAX`,
and `k = ⌈(usize::MAX as f64 / 1)·ln 2⌉` saturates to `u32::MAX` (computed
before the allocation; its value is never observed because
`BitVec::repeat` panics first). -/
def sizingSaturatedFpZero : Nat → ℚ → Nat × Nat :=
  fun _ _ => (USIZE_MAX, 2 ^ 32 - 1)

/-- The IEEE evaluation of the sizing formulae at `capacity ≥ 1` with
`fp_rate` outside `(0, 1)` but nonzero: for `fp_rate ≥ 1`, `ln p ≥ 0`
makes the `m` numerator `≤ 0` and the saturating `as usize` cast gives
`m = 0`; for `fp_rate < 0`, `ln p` is NaN and the NaN cast gives `m = 0`;
then `k = ⌈(0/n)·ln 2⌉ = 0`. -/
def sizingOutOfRangeFp : Nat → ℚ → Nat × Nat := fun _ _ => (0, 0)

/-- `BloomFilter::false_positive_rate` (bloom.rs:99-105):
`(1 - e^{-k·n/m})^k` with `n = items_inserted`, computed in `f64`; modelled
over exact reals.  The claims below use only which state fields the formula
reads — never its numeric value — so the idealization is harmless. -/
noncomputable def BloomFilter.false_positive_rate (s : BloomFilter) : ℝ :=
  (1 - Real.exp (-((s.num_hashes : ℝ) * (s.items_inserted : ℝ) /
    (s.bits.length : ℝ)))) ^ s.num_hashes

/-! ### Deduplication facade (src/lib.rs) -/

/-- The `Stats` record (lib.rs:27-31).  The counters are relaxed atomics in
Rust; under the single-threaded call sequences the claims quantify over,
they behave as the plain naturals modelled here. -/
structure Stats where
  total_checked : Nat
  duplicates_found : Nat
  urls_inserted : Nat
deriving DecidableEq

/-- `DeduplicationEngine` (lib.rs:18-23): Bloom filter, the default
normalizer (implicit: `UrlNormalizer.normalize` is used directly), and the
counters. -/
structure DeduplicationEngine where
  bloom : BloomFilter
  stats : Stats
deriving DecidableEq

/-- `DeduplicationEngine::new` (lib.rs:33-46): a fresh filter (bit count `m`
and hash count `k` from the abstracted f64 sizing) and zero counters. -/
def DeduplicationEngine.new (m k : Nat) : DeduplicationEngine :=
  { bloom := { bits := List.replicate m false, num_hashes := k,
               items_inserted := 0 }
    stats := { total_checked := 0, duplicates_found := 0, urls_inserted := 0 } }

/-- `DeduplicationEngine::check_and_insert` (lib.rs:52-78): bump
`total_checked`; normalize (`none` = `Err(ParseError)` is returned with no
further effect); on a Bloom hit bump `duplicates_found` and answer `true`;
otherwise insert the canonical key, bump `urls_inserted`, answer `false`. -/
def checkAndInsert (hash : String → Nat × Nat) (e : DeduplicationEngine)
    (url : String) : Option Bool × DeduplicationEngine :=
  let stats := { e.stats with total_checked := e.stats.total_checked + 1 }
  match UrlNormalizer.normalize url with
  | none => (none, { e with stats := stats })
  | some normalized =>
      if e.bloom.contains hash normalized then
        (some true,
         { e with stats :=
            { stats with duplicates_found := stats.duplicates_found + 1 } })
      else
        (some false,
         { bloom := e.bloom.insert hash normalized
           stats :=
            { stats with urls_inserted := stats.urls_inserted + 1 } })

/-- A single-threaded sequence of `check_and_insert` calls. -/
def runEngine (hash : String → Nat × Nat) (e : DeduplicationEngine) :
    List String → DeduplicationEngine
  | [] => e
  | u :: us => runEngine hash (checkAndInsert hash e u).2 us

/-- The number of calls in a batch that return a parse error (`normalize`
is pure, so this is a function of the inputs alone). -/
def countParseErrors (urls : List String) : Nat :=
  urls.countP fun u => (UrlNormalizer.normalize u).isNone

/-- The emitted pair list is weakly increasing on keys. -/
def pairsSortedByKey : List (String × String) → Bool
  | [] => true
  | [_] => true
  | p :: q :: t => keyLe p.1 q.1 && pairsSortedByKey (q :: t)

/-- What Rust guarantees of `sort_unstable_by(|a, b| a.0.cmp(&b.0))`: the
result is a permutation of the input, sorted on keys.  Nothing is promised
about the relative order of pairs with equal keys. -/
def SortSpec (f : List (String × String) → List (String × String)) : Prop :=
  ∀ l, (f l).Perm l ∧ pairsSortedByKey (f l) = true

/-! ### Lemmas and claim theorems -/

lemma foldl_set_true_length (f : Nat → Nat) :
    ∀ (idxs : List Nat) (bs : List Bool),
      (idxs.foldl (fun b i => b.set (f i) true) bs).length = bs.length := by
  intro idxs
  induction idxs with
  | nil => intro bs; rfl
  | cons a t ih =>
      intro bs
      simp only [List.foldl_cons]
      rw [ih]
      exact List.length_set ..

lemma getD_set_true {l : List Bool} {i j : Nat}
    (h : l.getD i false = true) : (l.set j true).getD i false = true := by
  induction l generalizing i j with
  | nil => simp [List.getD] at h
  | cons a t ih =>
      cases j with
      | zero =>
          cases i with
          | zero => simp [List.set, List.getD]
          | succ i => simpa [List.set, List.getD] using h
      | succ j =>
          cases i with
          | zero => simpa [List.set, List.getD] using h
          | succ i =>
              simp only [List.set, List.getD_cons_succ] at h ⊢
              exact ih h

lemma getD_set_self {l : List Bool} {j : Nat}
    (h : j < l.length) : (l.set j true).getD j false = true := by
  induction l generalizing j with
  | nil => simp at h
  | cons a t ih =>
      cases j with
      | zero => simp [List.set, List.getD]
      | succ j =>
          simp only [List.length_cons, Nat.succ_lt_succ_iff] at h
          simp only [List.set, List.getD_cons_succ]
          exact ih h

lemma foldl_set_true_mono (f : Nat → Nat) :
    ∀ (idxs : List Nat) (bs : List Bool) (i : Nat),
      bs.getD i false = true →
      (idxs.foldl (fun b a => b.set (f a) true) bs).getD i false = true := by
  intro idxs
  induction idxs with
  | nil => intro bs i h; exact h
  | cons a t ih =>
      intro bs i h
      simp only [List.foldl_cons]
      exact ih _ _ (getD_set_true h)

lemma foldl_set_true_mem (f : Nat → Nat) :
    ∀ (idxs : List Nat) (bs : List Bool) (j : Nat),
      j ∈ idxs → f j < bs.length →
      (idxs.foldl (fun b a => b.set (f a) true) bs).getD (f j) false = true := by
  intro idxs
  induction idxs with
  | nil => intro bs j h; simp at h
  | cons a t ih =>
      intro bs j hmem hlt
      simp only [List.foldl_cons]
      rcases List.mem_cons.mp hmem with rfl | hmem
      · exact foldl_set_true_mono f t _ _ (getD_set_self hlt)
      · exact ih _ _ hmem (by rw [List.length_set]; exact hlt)

@[simp] lemma insert_bits_length (hash : String → Nat × Nat)
    (s : BloomFilter) (v : String) :
    (s.insert hash v).bits.length = s.bits.length := by
  simp only [BloomFilter.insert]
  exact foldl_set_true_length _ _ _

@[simp] lemma insert_num_hashes (hash : String → Nat × Nat)
    (s : BloomFilter) (v : String) :
    (s.insert hash v).num_hashes = s.num_hashes := rfl

@[simp] lemma insertSeq_bits_length (hash : String → Nat × Nat)
    (values : List String) (s : BloomFilter) :
    (s.insertSeq hash values).bits.length = s.bits.length := by
  induction values generalizing s with
  | nil => rfl
  | cons a t ih =>
      simp only [BloomFilter.insertSeq, List.foldl_cons] at ih ⊢
      rw [ih, insert_bits_length]

@[simp] lemma insertSeq_num_hashes (hash : String → Nat × Nat)
    (values : List String) (s : BloomFilter) :
    (s.insertSeq hash values).num_hashes = s.num_hashes := by
  induction values generalizing s with
  | nil => rfl
  | cons a t ih =>
      simp only [BloomFilter.insertSeq, List.foldl_cons] at ih ⊢
      rw [ih, insert_num_hashes]

/-- Once `contains` answers `true`, a further `insert` (of any value) cannot
turn it back to `false`: bits are only ever set, never cleared. -/
lemma contains_mono (hash : String → Nat × Nat) (s : BloomFilter)
    (x y : String) (h : s.contains hash x = true) :
    (s.insert hash y).contains hash x = true := by
  simp only [BloomFilter.contains, List.all_eq_true] at h ⊢
  intro i hi
  rw [insert_num_hashes] at hi
  have hlen : (s.insert hash y).bits.length = s.bits.length :=
    insert_bits_length ..
  rw [hlen]
  simp only [BloomFilter.insert]
  exact foldl_set_true_mono _ _ _ _ (h i hi)

lemma contains_insertSeq_mono (hash : String → Nat × Nat)
    (values : List String) (s : BloomFilter) (x : String)
    (h : s.contains hash x = true) :
    (s.insertSeq hash values).contains hash x = true := by
  induction values generalizing s with
  | nil => exact h
  | cons a t ih =>
      simp only [BloomFilter.insertSeq, List.foldl_cons] at ih ⊢
      exact ih _ (contains_mono _ _ _ _ h)

/-- Immediately after `insert x`, all `k` probed positions are set, so
`contains x` is `true` (the bit array must be non-empty, which holds for
every filter built by `BloomFilter::new` with `capacity ≥ 1` and
`0 < fp_rate < 1`, since then `m = ⌈-n·ln p/(ln 2)²⌉ ≥ 1`). -/
lemma contains_insert_self (hash : String → Nat × Nat) (s : BloomFilter)
    (x : String) (hm : 0 < s.bits.length) :
    (s.insert hash x).contains hash x = true := by
  simp only [BloomFilter.contains, List.all_eq_true]
  intro i hi
  rw [insert_num_hashes] at hi
  have hlen : (s.insert hash x).bits.length = s.bits.length :=
    insert_bits_length ..
  rw [hlen]
  simp only [BloomFilter.insert]
  exact foldl_set_true_mem _ _ _ i (List.mem_range.mpr (List.mem_range.mp hi))
    (Nat.mod_lt _ hm)

/-! ### Claim theorems -/

/-- C1: for every key `x` and every Bloom filter whose construction gave a
non-empty bit array — which `BloomFilter::new` guarantees for every
`capacity ≥ 1` and `0 < fp_rate < 1`, since `m = ⌈-n·ln p/(ln 2)²⌉ ≥ 1`
there — `contains(x)` returns `true` after `insert(x)`, whatever other
inserts happen before or after.  Quantifying over the start state `s`
subsumes any prefix of earlier operations. -/
theorem bloom_no_false_negatives (hash : String → Nat × Nat)
    (s : BloomFilter) (x : String) (pre post : List String)
    (hm : 0 < s.bits.length) :
    (((s.insertSeq hash pre).insert hash x).insertSeq hash post).contains
      hash x = true := by
  have h1 : 0 < (s.insertSeq hash pre).bits.length := by
    rw [insertSeq_bits_length]; exact hm
  exact contains_insertSeq_mono _ _ _ _ (contains_insert_self _ _ _ h1)

/-- Witness for C1 at a concrete filter — the very record a successful
`BloomFilter::new` returns when the sizing yields `(m, k) = (8, 3)` — with
a concrete hash function and key. -/
theorem bloom_no_false_negatives_witness :
    0 < ({ bits := List.replicate 8 false, num_hashes := 3,
           items_inserted := 0 } : BloomFilter).bits.length ∧
    (((({ bits := List.replicate 8 false, num_hashes := 3,
          items_inserted := 0 } : BloomFilter).insertSeq
        (fun v => (v.length, 2 * v.length + 1)) ["http://a/", "http://b/"]).insert
        (fun v => (v.length, 2 * v.length + 1)) "http://x/").insertSeq
        (fun v => (v.length, 2 * v.length + 1)) ["http://c/"]).contains
        (fun v => (v.length, 2 * v.length + 1)) "http://x/" = true :=
  ⟨by decide,
   bloom_no_false_negatives (fun v => (v.length, 2 * v.length + 1)) _
     "http://x/" ["http://a/", "http://b/"] ["http://c/"] (by decide)⟩

/-- C4 (amended): `SimHashEngine::new` fails construction (assertion panic)
exactly when `bit_width ≠ 64`.  `BloomFilter::new` validates nothing, and
among the inputs the claim names only `fp_rate = ±0.0` with `capacity ≥ 1`
actually fails: there `ln p = -∞`, `m` saturates to `usize::MAX`, and
`BitVec::repeat` panics over `bitvec`'s maximum length.  `capacity = 0`
succeeds for every `fp_rate` (IEEE sizing `m = 0`, `k = 0`): the caller
obtains a usable filter that counts an insert and whose `contains` is
constantly `true`.  `fp_rate > 1` or `fp_rate < 0` with `capacity ≥ 1`
also succeeds, with `m = 0`, `k = 0`. -/
theorem construction_failure_amended (bit_width : Nat) (hbw : bit_width ≠ 64)
    (fp_rate : ℚ) (hash : String → Nat × Nat) (x y : String) :
    SimHashEngine.new bit_width = none ∧
    (SimHashEngine.new 64).isSome = true ∧
    (BloomFilter.new sizingAtCapacityZero 0 fp_rate).map
        (fun f => ((f.insert hash x).items_inserted,
          (f.insert hash x).contains hash y))
      = some (1, true) ∧
    BloomFilter.new sizingSaturatedFpZero 1 0 = none ∧
    (BloomFilter.new sizingOutOfRangeFp 1 2).isSome = true := by
  refine ⟨by simp [SimHashEngine.new, hbw], by simp [SimHashEngine.new],
    rfl, by decide, rfl⟩

/-- Counterexample to C4 as stated: calling `BloomFilter::new` with
`capacity = 0` (and a legal `fp_rate`) does not fail — `m = 0` and
`k = NaN as u32 = 0`, no loop body ever runs, and the caller obtains a
filter they can insert into and query. -/
theorem construction_capacity_zero_succeeds :
    (BloomFilter.new sizingAtCapacityZero 0 (1/2)).map
        (fun f => ((f.insert (fun v => (v.length, 1))
            "http://example.com/").items_inserted,
          (f.insert (fun v => (v.length, 1))
            "http://example.com/").contains (fun v => (v.length, 1))
            "http://example.com/"))
      = some (1, true) := by
  rfl

lemma popCount64_le (x : Nat) : popCount64 x ≤ 64 := by
  have h := List.countP_le_length (fun i => x.testBit i)
    (l := List.range 64)
  simpa [popCount64] using h

lemma popCount64_eq_zero_iff {x : Nat} (hx : x < U64) :
    popCount64 x = 0 ↔ x = 0 := by
  constructor
  · intro h
    refine Nat.zero_of_testBit_eq_false fun i => ?_
    by_cases hi : i < 64
    · have := List.countP_eq_zero.mp h i (List.mem_range.mpr hi)
      simpa using this
    · refine Nat.testBit_eq_false_of_lt (lt_of_lt_of_le hx ?_)
      exact Nat.pow_le_pow_right (by norm_num) (le_of_not_lt hi)
  · rintro rfl
    simp [popCount64]

lemma hammingDistance_comm (a b : Nat) :
    hammingDistance a b = hammingDistance b a := by
  simp [hammingDistance, Nat.xor_comm]

/-- C9: `similarity` (a pure function of its two arguments, hence
deterministic) lies in `[0,1]`, is symmetric, and equals `1` exactly when
the fingerprints are equal; `hammingDistance` is the population count of
the XOR by definition.  The `f64` arithmetic `1.0 - dist/64.0` is exact for
`dist ≤ 64`, so the rational model is faithful. -/
theorem similarity_props (a b : Nat) (ha : a < U64) (hb : b < U64) :
    0 ≤ similarity a b ∧ similarity a b ≤ 1 ∧
    similarity a b = similarity b a ∧
    (similarity a b = 1 ↔ a = b) ∧
    hammingDistance a b = popCount64 (a ^^^ b) := by
  have hle : (hammingDistance a b : ℚ) / 64 ≤ 1 := by
    rw [div_le_one (by norm_num)]
    exact_mod_cast popCount64_le (a ^^^ b)
  have hnn : (0 : ℚ) ≤ (hammingDistance a b : ℚ) / 64 := by positivity
  refine ⟨by simp only [similarity]; linarith, by simp only [similarity]; linarith,
    by simp [similarity, hammingDistance_comm], ?_, rfl⟩
  rw [similarity, sub_eq_self, div_eq_zero_iff]
  constructor
  · rintro (h | h)
    · have hz : hammingDistance a b = 0 := by exact_mod_cast h
      have : a ^^^ b = 0 :=
        (popCount64_eq_zero_iff (Nat.xor_lt_two_pow ha hb)).mp hz
      exact Nat.xor_eq_zero.mp this
    · norm_num at h
  · rintro rfl
    left
    have : a ^^^ a = 0 := Nat.xor_eq_zero.mpr rfl
    simp [hammingDistance, this, popCount64_eq_zero_iff, U64]

/-- Witness for C9 at the concrete fingerprints 5 and 9. -/
theorem similarity_props_witness :
    5 < U64 ∧ 9 < U64 ∧
    (0 ≤ similarity 5 9 ∧ similarity 5 9 ≤ 1 ∧
     similarity 5 9 = similarity 9 5 ∧
     (similarity 5 9 = 1 ↔ (5 : Nat) = 9) ∧
     hammingDistance 5 9 = popCount64 (5 ^^^ 9)) :=
  ⟨by decide, by decide, similarity_props 5 9 (by decide) (by decide)⟩

lemma set_true_eq_self {l : List Bool} {j : Nat}
    (h : l.getD j false = true) : l.set j true = l := by
  induction l generalizing j with
  | nil => simp [List.getD] at h
  | cons a t ih =>
      cases j with
      | zero =>
          simp only [List.getD_cons_zero] at h
          simp [List.set, h]
      | succ j =>
          simp only [List.getD_cons_succ] at h
          simp [List.set, ih h]

lemma foldl_set_true_fix (f : Nat → Nat) (idxs : List Nat) (bs : List Bool)
    (h : ∀ j ∈ idxs, bs.set (f j) true = bs) :
    idxs.foldl (fun b a => b.set (f a) true) bs = bs := by
  induction idxs with
  | nil => rfl
  | cons a t ih =>
      simp only [List.foldl_cons]
      rw [h a (List.mem_cons_self a t)]
      exact ih fun j hj => h j (List.mem_cons_of_mem a hj)

/-- Re-running the same set of bit writes is a no-op on the bit array. -/
lemma foldl_set_true_idem (f : Nat → Nat) (idxs : List Nat) (bs : List Bool) :
    idxs.foldl (fun b a => b.set (f a) true)
      (idxs.foldl (fun b a => b.set (f a) true) bs) =
    idxs.foldl (fun b a => b.set (f a) true) bs := by
  refine foldl_set_true_fix f idxs _ fun j hj => ?_
  by_cases hlt : f j < bs.length
  · refine set_true_eq_self ?_
    exact foldl_set_true_mem f idxs bs j hj hlt
  · refine List.set_eq_of_length_le ?_
    rw [foldl_set_true_length]
    exact le_of_not_lt hlt

@[simp] lemma insert_items_inserted (hash : String → Nat × Nat)
    (s : BloomFilter) (v : String) :
    (s.insert hash v).items_inserted = s.items_inserted + 1 := rfl

/-- Inserting a key that was just inserted rewrites exactly the same bit
positions, leaving the bit array unchanged. -/
lemma insert_insert_self_bits (hash : String → Nat × Nat) (s : BloomFilter)
    (x : String) :
    ((s.insert hash x).insert hash x).bits = (s.insert hash x).bits := by
  have formula : ∀ (t : BloomFilter),
      (t.insert hash x).bits = (List.range t.num_hashes).foldl
        (fun bs i => bs.set (bloomIndex (hash x).1 (hash x).2 i
          t.bits.length) true) t.bits := fun t => rfl
  rw [formula (s.insert hash x), insert_num_hashes, insert_bits_length,
    formula s]
  exact foldl_set_true_idem
    (fun i => bloomIndex (hash x).1 (hash x).2 i s.bits.length) _ _

/-- C10: every `BloomFilter::insert` call adds exactly 1 to
`items_inserted`, including a repeated insert of the same key (which leaves
the bit array untouched); consequently `false_positive_rate`, which reads
`n = items_inserted`, depends on the number of insert calls and not on the
number of distinct keys: after two inserts of the same key it equals the
estimate after inserts of two distinct keys (any second key `y`, even under
a different hasher `hash2`). -/
theorem insert_counts_calls (hash hash2 : String → Nat × Nat)
    (s : BloomFilter) (x y : String) :
    (s.insert hash x).items_inserted = s.items_inserted + 1 ∧
    ((s.insert hash x).insert hash x).items_inserted = s.items_inserted + 2 ∧
    ((s.insert hash x).insert hash x).bits = (s.insert hash x).bits ∧
    ((s.insert hash x).insert hash x).false_positive_rate =
      ((s.insert hash x).insert hash2 y).false_positive_rate := by
  refine ⟨rfl, rfl, insert_insert_self_bits hash s x, ?_⟩
  simp [BloomFilter.false_positive_rate]

/-- C3: `check_and_insert` always increments `total_checked`; on parse
failure it returns the error having touched nothing else; on a Bloom hit it
increments `duplicates_found` and answers `true` (no filter mutation);
otherwise it inserts the canonical key, increments `urls_inserted`, and
answers `false`.  (`none` models the returned `ParseError`; the concrete
error value is the parser's and is not modelled.) -/
theorem check_and_insert_spec (hash : String → Nat × Nat)
    (e : DeduplicationEngine) (url : String) :
    (checkAndInsert hash e url).2.stats.total_checked
        = e.stats.total_checked + 1 ∧
    (UrlNormalizer.normalize url = none →
      (checkAndInsert hash e url).1 = none ∧
      (checkAndInsert hash e url).2.bloom = e.bloom ∧
      (checkAndInsert hash e url).2.stats.duplicates_found
        = e.stats.duplicates_found ∧
      (checkAndInsert hash e url).2.stats.urls_inserted
        = e.stats.urls_inserted) ∧
    (∀ n, UrlNormalizer.normalize url = some n →
      e.bloom.contains hash n = true →
      (checkAndInsert hash e url).1 = some true ∧
      (checkAndInsert hash e url).2.stats.duplicates_found
        = e.stats.duplicates_found + 1 ∧
      (checkAndInsert hash e url).2.stats.urls_inserted
        = e.stats.urls_inserted ∧
      (checkAndInsert hash e url).2.bloom = e.bloom) ∧
    (∀ n, UrlNormalizer.normalize url = some n →
      e.bloom.contains hash n = false →
      (checkAndInsert hash e url).1 = some false ∧
      (checkAndInsert hash e url).2.bloom = e.bloom.insert hash n ∧
      (checkAndInsert hash e url).2.stats.urls_inserted
        = e.stats.urls_inserted + 1 ∧
      (checkAndInsert hash e url).2.stats.duplicates_found
        = e.stats.duplicates_found) := by
  cases hnorm : UrlNormalizer.normalize url with
  | none =>
      refine ⟨?_, fun _ => ?_, fun n hn => ?_, fun n hn => ?_⟩ <;>
        simp_all [checkAndInsert]
  | some n0 =>
      cases hc : e.bloom.contains hash n0 with
      | false =>
          refine ⟨?_, fun h => ?_, fun n hn => ?_, fun n hn hcn => ?_⟩ <;>
            simp_all [checkAndInsert]
      | true =>
          refine ⟨?_, fun h => ?_, fun n hn hcn => ?_, fun n hn hcn => ?_⟩ <;>
            simp_all [checkAndInsert]

/-- Witness for C3 on a fresh engine and a parseable new URL (the
insert branch). -/
theorem check_and_insert_spec_witness :
    UrlNormalizer.normalize "http://example.com" = some "http://example.com/" ∧
    (DeduplicationEngine.new 8 2).bloom.contains (fun v => (v.length, 3))
      "http://example.com/" = false ∧
    (checkAndInsert (fun v => (v.length, 3)) (DeduplicationEngine.new 8 2)
      "http://example.com").1 = some false ∧
    (checkAndInsert (fun v => (v.length, 3)) (DeduplicationEngine.new 8 2)
      "http://example.com").2.stats.urls_inserted
      = (DeduplicationEngine.new 8 2).stats.urls_inserted + 1 :=
  ⟨by decide, by decide,
   ((check_and_insert_spec (fun v => (v.length, 3))
      (DeduplicationEngine.new 8 2) "http://example.com").2.2.2
      "http://example.com/" (by decide) (by decide)).1,
   ((check_and_insert_spec (fun v => (v.length, 3))
      (DeduplicationEngine.new 8 2) "http://example.com").2.2.2
      "http://example.com/" (by decide) (by decide)).2.2.1⟩

lemma checkAndInsert_step (hash : String → Nat × Nat)
    (e : DeduplicationEngine) (url : String) :
    (checkAndInsert hash e url).2.stats.total_checked
        = e.stats.total_checked + 1 ∧
    (checkAndInsert hash e url).2.stats.duplicates_found
        + (checkAndInsert hash e url).2.stats.urls_inserted
      = e.stats.duplicates_found + e.stats.urls_inserted
        + (if (UrlNormalizer.normalize url).isSome then 1 else 0) := by
  cases hnorm : UrlNormalizer.normalize url with
  | none => simp [checkAndInsert, hnorm]
  | some n0 =>
      cases hc : e.bloom.contains hash n0 with
      | false => simp [checkAndInsert, hnorm, hc]; omega
      | true => simp [checkAndInsert, hnorm, hc]; omega

lemma runEngine_counts (hash : String → Nat × Nat) :
    ∀ (urls : List String) (e : DeduplicationEngine),
      (runEngine hash e urls).stats.total_checked
          = e.stats.total_checked + urls.length ∧
      (runEngine hash e urls).stats.duplicates_found
          + (runEngine hash e urls).stats.urls_inserted
        = e.stats.duplicates_found + e.stats.urls_inserted
          + urls.countP (fun u => (UrlNormalizer.normalize u).isSome) := by
  intro urls
  induction urls with
  | nil => intro e; simp [runEngine]
  | cons u us ih =>
      intro e
      have hstep := checkAndInsert_step hash e u
      have hrec := ih (checkAndInsert hash e u).2
      simp only [runEngine, List.countP_cons, List.length_cons]
      constructor
      · rw [hrec.1, hstep.1]; omega
      · rw [hrec.2, hstep.2]
        by_cases hs : (UrlNormalizer.normalize u).isSome
        · simp [hs]
          omega
        · simp [hs]

lemma countP_some_add_none (urls : List String) :
    urls.countP (fun u => (UrlNormalizer.normalize u).isSome)
      + countParseErrors urls = urls.length := by
  induction urls with
  | nil => simp [countParseErrors]
  | cons u us ih =>
      simp only [countParseErrors, List.countP_cons] at ih ⊢
      cases hnorm : UrlNormalizer.normalize u <;> simp [hnorm] <;> omega

/-- C8: starting from a fresh engine (`m`, `k` are the abstracted f64
sizing outputs; the result holds for all of them), after any
single-threaded sequence of `check_and_insert` calls,
`total_checked = duplicates_found + urls_inserted + #(calls returning a
parse error)`. -/
theorem engine_accounting_identity (hash : String → Nat × Nat) (m k : Nat)
    (urls : List String) :
    (runEngine hash (DeduplicationEngine.new m k) urls).stats.total_checked
      = (runEngine hash (DeduplicationEngine.new m k)
          urls).stats.duplicates_found
        + (runEngine hash (DeduplicationEngine.new m k)
            urls).stats.urls_inserted
        + countParseErrors urls := by
  have h := runEngine_counts hash urls (DeduplicationEngine.new m k)
  have hc := countP_some_add_none urls
  have h0t : (DeduplicationEngine.new m k).stats.total_checked = 0 := rfl
  have h0d : (DeduplicationEngine.new m k).stats.duplicates_found = 0 := rfl
  have h0u : (DeduplicationEngine.new m k).stats.urls_inserted = 0 := rfl
  rw [h0t, h0d, h0u] at h
  omega

/-- C2 (failing instance): `normalize` is NOT idempotent.  `query_pairs`
percent-decodes, and the emitter writes the decoded value verbatim, so
`".../?a=%26"` canonicalizes to `".../?a=&"`; re-normalizing re-splits that
query at the bare `'&'`, producing `".../?a="`.  (Traced against the `url`
crate: `form_urlencoded` decodes `%26` to `&` and skips the empty piece
after the bare `&` on the second round.) -/
theorem normalize_not_idempotent :
    UrlNormalizer.normalize "http://example.com/?a=%26"
      = some "http://example.com/?a=&" ∧
    UrlNormalizer.normalize "http://example.com/?a=&"
      = some "http://example.com/?a=" ∧
    (UrlNormalizer.normalize "http://example.com/?a=%26").bind
        UrlNormalizer.normalize
      ≠ UrlNormalizer.normalize "http://example.com/?a=%26" := by
  exact ⟨by decide, by decide, by decide⟩

/-- Counterexample to C5 as stated: a syntactically valid URL without a
host (`mailto:` form) is normalized successfully — no `ParseError` — and
yields `scheme://` followed by the path. -/
theorem normalize_hostless_not_error :
    UrlNormalizer.normalize "mailto:x" = some "mailto://x" := by
  decide

/-- C5 (amended): `normalize` returns `ParseError` exactly when the parse
itself fails; a parseable URL with no host is canonicalized successfully
(the host component is simply empty), not rejected. -/
theorem normalize_hostless_succeeds (input : String) (u : ParsedUrl)
    (h : parseUrl input = some u) (_hh : u.host = none) :
    UrlNormalizer.normalize input
      = some (normalizeParsed sortPairsByKey NormalizerConfig.default
          DEFAULT_TRACKING_PARAMS u) ∧
    UrlNormalizer.normalize input ≠ none := by
  constructor
  · simp [UrlNormalizer.normalize, normalizeWith, h]
  · simp [UrlNormalizer.normalize, normalizeWith, h]

/-- Witness for C5 (amended) at `mailto:user`. -/
theorem normalize_hostless_succeeds_witness :
    parseUrl "mailto:user"
      = some { scheme := "mailto", host := none, port := none,
               path := "user", query := none, fragment := none } ∧
    ({ scheme := "mailto", host := none, port := none, path := "user",
       query := none, fragment := none } : ParsedUrl).host = none ∧
    UrlNormalizer.normalize "mailto:user" ≠ none :=
  ⟨by decide, rfl,
   (normalize_hostless_succeeds "mailto:user"
     { scheme := "mailto", host := none, port := none, path := "user",
       query := none, fragment := none } (by decide) rfl).2⟩

/-- C6: under the default configuration the port component is emitted iff a
port is explicit and is not the scheme default (`http:80` / `https:443`);
every other explicit port is kept verbatim; end to end,
`"http://example.com:80"` loses the port and `"http://example.com:8080"`
keeps it. -/
theorem port_emission (u : ParsedUrl) (p : Nat) :
    (u.port = none →
      portComponent NormalizerConfig.default u.scheme u.port = "") ∧
    (u.port = some p →
      (u.scheme = "http" ∧ p = 80) ∨ (u.scheme = "https" ∧ p = 443) →
      portComponent NormalizerConfig.default u.scheme u.port = "") ∧
    (u.port = some p →
      ¬((u.scheme = "http" ∧ p = 80) ∨ (u.scheme = "https" ∧ p = 443)) →
      portComponent NormalizerConfig.default u.scheme u.port
        = ":" ++ toString p) ∧
    UrlNormalizer.normalize "http://example.com:80"
      = some "http://example.com/" ∧
    UrlNormalizer.normalize "http://example.com:8080"
      = some "http://example.com:8080/" := by
  refine ⟨fun hn => by rw [hn]; rfl, fun hp hd => ?_, fun hp hd => ?_,
    by decide, by decide⟩
  · rw [hp]
    rcases hd with ⟨h1, h2⟩ | ⟨h1, h2⟩ <;>
      simp [portComponent, NormalizerConfig.default, h1, h2]
  · rw [hp]
    have hb : ((u.scheme == "http" && p == 80)
        || (u.scheme == "https" && p == 443)) = false := by
      by_cases h1 : u.scheme = "http"
      · by_cases h3 : p = 80
        · exact absurd (Or.inl ⟨h1, h3⟩) hd
        · simp [h1, h3]
      · by_cases h2 : u.scheme = "https"
        · by_cases h4 : p = 443
          · exact absurd (Or.inr ⟨h2, h4⟩) hd
          · simp [h1, h2, h4]
        · simp [h1, h2]
    simp [portComponent, NormalizerConfig.default, hb]

/-- Witness for C6 at `http` with explicit non-default port 8080. -/
theorem port_emission_witness :
    ({ scheme := "http", host := some "example.com", port := some 8080,
       path := "/", query := none, fragment := none } : ParsedUrl).port
      = some 8080 ∧
    ¬((("http" : String) = "http" ∧ (8080 : Nat) = 80) ∨
      (("http" : String) = "https" ∧ (8080 : Nat) = 443)) ∧
    portComponent NormalizerConfig.default "http" (some 8080) = ":8080" :=
  ⟨rfl, by decide,
   (port_emission { scheme := "http", host := some "example.com",
                    port := some 8080, path := "/", query := none,
                    fragment := none }
      8080).2.2.1 rfl (by decide)⟩

lemma charListLt_asymm :
    ∀ a b : List Char, charListLt a b = true → charListLt b a = false := by
  intro a
  induction a with
  | nil =>
      intro b h
      cases b with
      | nil => simp [charListLt] at h
      | cons y ys => simp [charListLt]
  | cons x xs ih =>
      intro b h
      cases b with
      | nil => simp [charListLt] at h
      | cons y ys =>
          simp only [charListLt] at h ⊢
          by_cases hxy : x.toNat < y.toNat
          · have hyx : ¬ y.toNat < x.toNat := by omega
            simp [hxy, hyx]
          · by_cases hyx : y.toNat < x.toNat
            · simp [hxy, hyx] at h
            · simp only [hxy, hyx, if_false] at h
              simp [hxy, hyx, ih ys h]

lemma keyLe_of_keyLt {a b : String} (h : keyLt a b = true) :
    keyLe a b = true := by
  have hasym := charListLt_asymm _ _ h
  simp only [keyLe, keyLt, hasym, Bool.not_false]

lemma insertPairSorted_perm (p : String × String) :
    ∀ l, (insertPairSorted p l).Perm (p :: l) := by
  intro l
  induction l with
  | nil => exact List.Perm.refl _
  | cons q t ih =>
      simp only [insertPairSorted]
      by_cases h : keyLt q.1 p.1
      · rw [if_pos h]
        exact (ih.cons q).trans (List.Perm.swap p q t)
      · rw [if_neg h]

lemma insertPairSorted_sorted (p : String × String) :
    ∀ l, pairsSortedByKey l = true →
      pairsSortedByKey (insertPairSorted p l) = true := by
  intro l
  induction l with
  | nil => intro _; rfl
  | cons q t ih =>
      intro h
      simp only [insertPairSorted]
      by_cases hqp : keyLt q.1 p.1
      · rw [if_pos hqp]
        cases t with
        | nil =>
            have : keyLe q.1 p.1 = true := keyLe_of_keyLt hqp
            simp [insertPairSorted, pairsSortedByKey, this]
        | cons r t2 =>
            have hqr : keyLe q.1 r.1 = true := by
              simp only [pairsSortedByKey, Bool.and_eq_true] at h
              exact h.1
            have hrt : pairsSortedByKey (r :: t2) = true := by
              simp only [pairsSortedByKey, Bool.and_eq_true] at h
              exact h.2
            have hins := ih hrt
            simp only [insertPairSorted] at hins ⊢
            by_cases hrp : keyLt r.1 p.1
            · rw [if_pos hrp] at hins ⊢
              simp only [pairsSortedByKey, Bool.and_eq_true]
              exact ⟨hqr, hins⟩
            · rw [if_neg hrp] at hins ⊢
              simp only [pairsSortedByKey, Bool.and_eq_true] at hins ⊢
              refine ⟨keyLe_of_keyLt hqp, hins⟩
      · rw [if_neg hqp]
        have hpq : keyLe p.1 q.1 = true := by
          simp [keyLe, hqp]
        cases t with
        | nil => simp [pairsSortedByKey, hpq]
        | cons r t2 =>
            simp only [pairsSortedByKey, Bool.and_eq_true] at h ⊢
            exact ⟨hpq, h⟩

lemma sortPairsByKey_perm (l : List (String × String)) :
    (sortPairsByKey l).Perm l := by
  induction l with
  | nil => exact List.Perm.refl _
  | cons p t ih =>
      exact (insertPairSorted_perm p (sortPairsByKey t)).trans (ih.cons p)

lemma sortPairsByKey_sorted (l : List (String × String)) :
    pairsSortedByKey (sortPairsByKey l) = true := by
  induction l with
  | nil => rfl
  | cons p t ih => exact insertPairSorted_sorted p (sortPairsByKey t) ih

lemma sortPairsByKey_sortSpec : SortSpec sortPairsByKey :=
  fun l => ⟨sortPairsByKey_perm l, sortPairsByKey_sorted l⟩

/-- C7 (amended): the query step removes exactly the pairs whose key is in
the tracking set; if nothing survives, no `?` is emitted; otherwise the
output is `?k1=v1&…` over a key-sorted permutation of the surviving pairs
(the order among equal keys is whatever the unstable sort produces).
Stated for every sort routine meeting `sort_unstable_by`'s contract. -/
theorem query_component_spec
    (sortImpl : List (String × String) → List (String × String))
    (hs : SortSpec sortImpl) (q : String) :
    ((queryPairs q).filter
        (fun kv => !(DEFAULT_TRACKING_PARAMS.contains kv.1)) = [] →
      queryComponent sortImpl NormalizerConfig.default
        DEFAULT_TRACKING_PARAMS q = "") ∧
    ((queryPairs q).filter
        (fun kv => !(DEFAULT_TRACKING_PARAMS.contains kv.1)) ≠ [] →
      ∃ l, l.Perm ((queryPairs q).filter
          (fun kv => !(DEFAULT_TRACKING_PARAMS.contains kv.1))) ∧
        pairsSortedByKey l = true ∧
        queryComponent sortImpl NormalizerConfig.default
            DEFAULT_TRACKING_PARAMS q
          = "?" ++ String.intercalate "&"
              (l.map fun kv => kv.1 ++ "=" ++ kv.2)) := by
  constructor
  · intro h
    simp only [queryComponent]
    rw [h]
    rfl
  · intro h
    rcases hl : (queryPairs q).filter
        (fun kv => !(DEFAULT_TRACKING_PARAMS.contains kv.1)) with _ | ⟨p0, t0⟩
    · exact absurd hl h
    · cases t0 with
      | nil =>
          refine ⟨[p0], by rw [hl], rfl, ?_⟩
          simp only [queryComponent]
          rw [hl]
          rfl
      | cons p1 t1 =>
          refine ⟨sortImpl (p0 :: p1 :: t1), ?_,
            (hs (p0 :: p1 :: t1)).2, ?_⟩
          · rw [hl]; exact (hs (p0 :: p1 :: t1)).1
          · simp only [queryComponent]
            rw [hl]
            have h2 : (1 : Nat) < (p0 :: p1 :: t1).length := by simp
            simp [NormalizerConfig.default, h2]

/-- Witness for C7 (amended): the stable model sort satisfies the contract;
an all-tracking query emits nothing, and a surviving query emits the sorted
pairs. -/
theorem query_component_spec_witness :
    SortSpec sortPairsByKey ∧
    ((queryPairs "utm_source=x").filter
        (fun kv => !(DEFAULT_TRACKING_PARAMS.contains kv.1)) = []) ∧
    queryComponent sortPairsByKey NormalizerConfig.default
      DEFAULT_TRACKING_PARAMS "utm_source=x" = "" :=
  ⟨sortPairsByKey_sortSpec, by decide,
   (query_component_spec sortPairsByKey sortPairsByKey_sortSpec
      "utm_source=x").1 (by decide)⟩

/-- Witness for C4 (amended) at `bit_width = 32` and `fp_rate = 1/100`. -/
theorem construction_failure_amended_witness :
    (32 : Nat) ≠ 64 ∧
    (SimHashEngine.new 32 = none ∧
     (SimHashEngine.new 64).isSome = true ∧
     (BloomFilter.new sizingAtCapacityZero 0 (1/100)).map
         (fun f => ((f.insert (fun v => (v.length, 1))
             "http://a/").items_inserted,
           (f.insert (fun v => (v.length, 1)) "http://a/").contains
             (fun v => (v.length, 1)) "http://b/"))
       = some (1, true) ∧
     BloomFilter.new sizingSaturatedFpZero 1 0 = none ∧
     (BloomFilter.new sizingOutOfRangeFp 1 2).isSome = true) :=
  ⟨by decide,
   construction_failure_amended 32 (by decide) (1/100)
     (fun v => (v.length, 1)) "http://a/" "http://b/"⟩

end Kaka
